import Mathlib

/-!
Verification of the wheel-installation transaction implemented in
`src/examples/whl.py`.

The embedding below models the module shallowly:

* filesystem paths are lists of components (`FPath`);
* the filesystem is an explicit state (`FS`): an association list from paths
  to file contents plus the set of existing directories;
* file contents (`Content`) are either raw bytes (binary writes), plain text
  (text-mode writes), or a pre-parsed manifest (the external row codec of
  `installer.records` is a bijective round-tripping serializer per the spec,
  so a manifest file is represented by the row list it serializes);
* fallible operations return an error component explicitly.

Parts of the repository that `whl.py` imports but that are not present in
the sources (`installer.records`, `installer.layouts`) are modelled from the
spec; each such definition carries a doc comment starting with
`Modelled from the spec:`.
-/

/-- A filesystem path, as its list of components (pathlib `Path.parts`). -/
abbrev FPath := List String

/-- The final component of a path (pathlib `Path.name`). -/
def FPath.name (p : FPath) : String := (p.reverse.headD (""))

/-- All components but the last (pathlib `Path.parent`). -/
def FPath.parent (p : FPath) : FPath := p.dropLast

/-- Replace the final component (pathlib `Path.with_name`). -/
def FPath.withName (p : FPath) (n : String) : FPath := p.dropLast ++ [n]

/-- Modelled from the spec: a manifest entry (`RecordItem` from
`installer.records`, not under src/): relative path, optional content hash
(algorithm tag and digest), optional size. -/
structure RecordItem where
  path : FPath
  hash_ : Option (String × String)
  size : Option Nat
deriving DecidableEq

/-- File contents.  Binary writes store bytes, text-mode writes store text,
and the manifest file stores the row list handed to the external row codec
(`write_record_file`), which per the spec serializes one row per entry, in
order, and round-trips. -/
inductive Content where
  | binary (data : String)
  | text (s : String)
  | record (rows : List RecordItem)
deriving DecidableEq

/-- The errors surfacing from the modelled operations. -/
inductive Err where
  | valueError
  | badArchive
  | metadataResolution
  | entryNotFound (p : FPath)
  | hashMismatch (p : FPath)
  | attributeError
deriving DecidableEq

/-- First-match lookup in a path-keyed association list. -/
def lookupPC : List (FPath × Content) → FPath → Option Content
  | [], _ => none
  | e :: rest, p => if e.1 = p then some e.2 else lookupPC rest p

/-- Remove every binding of a path from a path-keyed association list. -/
def removeAllPC : List (FPath × Content) → FPath → List (FPath × Content)
  | [], _ => []
  | e :: rest, p =>
      if e.1 = p then removeAllPC rest p else e :: removeAllPC rest p

/-- The filesystem state: file contents and the set of existing directories. -/
structure FS where
  files : List (FPath × Content)
  dirs : List FPath
deriving DecidableEq

/-- Content at a path, `none` when no file exists there. -/
def FS.get (fs : FS) (p : FPath) : Option Content := lookupPC fs.files p

/-- Create or overwrite the file at `p`. -/
def FS.setFile (fs : FS) (p : FPath) (c : Content) : FS :=
  { fs with files := (p, c) :: fs.files }

/-- Delete the file at `p`. -/
def FS.removeFile (fs : FS) (p : FPath) : FS :=
  { fs with files := removeAllPC fs.files p }

/-- `src.replace(dst)` (pathlib): atomically rename `src` onto `dst`,
replacing any file previously at `dst`.  (A missing source cannot occur in
the flows below; the state is then returned unchanged.) -/
def FS.replaceFile (fs : FS) (src dst : FPath) : FS :=
  match FS.get fs src with
  | none => fs
  | some c => FS.setFile (FS.removeFile (FS.removeFile fs src) dst) dst c

/-- All nonempty prefixes of a path: the chain of directories `os.makedirs`
creates. -/
def pathPrefixes (p : FPath) : List FPath :=
  (List.range p.length).map (fun i => p.take (i + 1))

/-- `os.makedirs(p)`: creates `p` and its ancestors; `none` models the
`OSError` with `errno == EEXIST` raised when `p` already exists (the only
`OSError` arising in this filesystem model). -/
def FS.makedirs (fs : FS) (p : FPath) : Option FS :=
  if p ∈ fs.dirs then none
  else some { fs with dirs := pathPrefixes p ++ fs.dirs }

/-- `_makedirs_exist_ok` from `whl.py`: call `os.makedirs` and swallow the
already-exists error. -/
def makedirsExistOk (fs : FS) (p : FPath) : FS :=
  match FS.makedirs fs p with
  | some fs' => fs'
  | none => fs

/-- Outcome of the writer body handed to `_open_adjacent_tmp_for_write`:
either it completes, leaving full content in the temporary file, or it
raises after having written some partial content. -/
inductive WriteOutcome where
  | ok (c : Content)
  | fail (part : Content) (e : Err)

/-- The temporary-file path used by `_open_adjacent_tmp_for_write`:
same directory as the target, name formed as `path.name + ".tmp." + name`
(the Python format string with the installer identity). -/
def tempOf (path : FPath) (name : String) : FPath :=
  FPath.withName path (FPath.name path ++ (".tmp.") ++ name)

/-- `_open_adjacent_tmp_for_write` from `whl.py`: ensure the parent
directories of `path` exist, open the adjacent temporary file, run the
writer body against it, and only on its successful completion rename the
temporary file onto `path`.  On a body failure the error propagates, the
temporary file remains with the partial content, and `path` is untouched. -/
def openAdjacentTmpForWrite (name : String) (fs : FS) (path : FPath)
    (body : WriteOutcome) : FS × Option Err :=
  let fs1 := makedirsExistOk fs (FPath.parent path)
  let temp := tempOf path name
  match body with
  | .fail part e => (FS.setFile fs1 temp part, some e)
  | .ok c => (FS.replaceFile (FS.setFile fs1 temp c) temp path, none)

/-- A zip archive: entries keyed by path.  `zipfile.ZipFile` offers
random-access open-by-name and the list of entry names. -/
structure Zip where
  entries : List (FPath × Content)
deriving DecidableEq

/-- `zf.open(name)` followed by `f.read()`: the full content of the named
entry, `none` when the archive has no such entry (`KeyError`). -/
def Zip.read (z : Zip) (p : FPath) : Option Content := lookupPC z.entries p

/-- Modelled from the spec: `DistInfo` from `installer.layouts` (not under
src/), the resolved metadata directory together with its well-known derived
paths — the manifest file `RECORD` and the installer-identity file
`INSTALLER` (names as in the spec's concrete scenarios). -/
structure DistInfo where
  directory : String
deriving DecidableEq

/-- The manifest file path inside the metadata directory. -/
def DistInfo.record (d : DistInfo) : FPath := [d.directory, ("RECORD")]

/-- The installer-identity file path inside the metadata directory. -/
def DistInfo.installer (d : DistInfo) : FPath := [d.directory, ("INSTALLER")]

/-- `ZipFileInstaller` from `whl.py`: installer name, resolved metadata
directory, archive handle.  `hashFn` is the external hash-algorithm family
(`hashlib`, behind `RecordItem.raise_for_validation`): algorithm tag and
content to digest string; it is a parameter of the model. -/
structure Installer where
  name : String
  distInfo : DistInfo
  zip : Zip
  hashFn : String → Content → String

/-- Modelled from the spec: `RecordItem.raise_for_validation` from
`installer.records` (not under src/): when the entry's hash is present,
recompute the same algorithm over the read content and fail with a
hash-mismatch error if the digests differ; entries without a hash are not
validated. -/
def raiseForValidation (hashFn : String → Content → String)
    (item : RecordItem) (data : Content) : Option Err :=
  match item.hash_ with
  | none => none
  | some (alg, digest) =>
      if hashFn alg data = digest then none else some (.hashMismatch item.path)

/-- `_install_record_item` from `whl.py`: read the declared entry from the
archive, validate it against its recorded hash, and only then write it in
binary mode through the atomic writer to `directory / item.path`. -/
def installRecordItem (inst : Installer) (fs : FS) (item : RecordItem)
    (directory : FPath) : FS × Option Err :=
  match Zip.read inst.zip item.path with
  | none => (fs, some (.entryNotFound item.path))
  | some data =>
      match raiseForValidation inst.hashFn item data with
      | some e => (fs, some e)
      | none => openAdjacentTmpForWrite inst.name fs (directory ++ item.path) (.ok data)

/-- Decides whether `_install_record_item` would abort on this entry
(missing archive entry or failed validation); independent of the filesystem
state. -/
def itemFails (inst : Installer) (item : RecordItem) : Bool :=
  match Zip.read inst.zip item.path with
  | none => true
  | some data =>
      match raiseForValidation inst.hashFn item data with
      | some _ => true
      | none => false

/-- The loop of `_iter_installed_record_items`: install the declared entries
in order, aborting the whole run on the first error, and report the
successfully processed entries. -/
def installItems (inst : Installer) (fs : FS) (directory : FPath) :
    List RecordItem → FS × Except Err (List RecordItem)
  | [] => (fs, .ok [])
  | item :: rest =>
      match installRecordItem inst fs item directory with
      | (fs', some e) => (fs', .error e)
      | (fs', none) =>
          match installItems inst fs' directory rest with
          | (fs'', .ok items) => (fs'', .ok (item :: items))
          | (fs'', .error e) => (fs'', .error e)

/-- Modelled from the spec: `parse_record_file` from `installer.records`
(not under src/) is the external row codec's parser; since a manifest file
is represented by its pre-parsed row list (`Content.record`), parsing
projects that list out.  Non-manifest content parses to no rows. -/
def parseRecordContent : Content → List RecordItem
  | .record rows => rows
  | _ => []

/-- `_iter_installed_record_items` from `whl.py`: open the declared manifest
from the archive, parse it, and install every declared entry. -/
def iterInstalledRecordItems (inst : Installer) (fs : FS) (directory : FPath) :
    FS × Except Err (List RecordItem) :=
  match Zip.read inst.zip (DistInfo.record inst.distInfo) with
  | none => (fs, .error (.entryNotFound (DistInfo.record inst.distInfo)))
  | some c => installItems inst fs directory (parseRecordContent c)

/-- `_iter_installed_scripts` from `whl.py`: `return iter(())` — the script
generation placeholder contributes no entries. -/
def iterInstalledScripts (_directory : FPath) : List RecordItem := []

/-- `_write_additional_metadata` from `whl.py`: write the installer-identity
file (text mode, content exactly the installer name) through the atomic
writer, and yield its manifest entry with absent hash and size. -/
def writeAdditionalMetadata (inst : Installer) (fs : FS) (directory : FPath) :
    FS × List RecordItem :=
  let installerPath := DistInfo.installer inst.distInfo
  let res := openAdjacentTmpForWrite inst.name fs (directory ++ installerPath)
    (.ok (.text inst.name))
  (res.1, [⟨installerPath, none, none⟩])

/-- The installed set: Python's insertion-ordered `dict` from path to
manifest entry, as an association list in key-insertion order. -/
abbrev OMap := List (FPath × RecordItem)

/-- Python `dict` lookup. -/
def OMap.lookup : OMap → FPath → Option RecordItem
  | [], _ => none
  | kv :: rest, k => if kv.1 = k then some kv.2 else OMap.lookup rest k

/-- Python `dict.__setitem__`: an existing key keeps its position and takes
the new value (last write wins); a new key is appended at the end. -/
def OMap.insertKV : OMap → FPath → RecordItem → OMap
  | [], k, v => [(k, v)]
  | kv :: rest, k, v =>
      if kv.1 = k then (k, v) :: rest else kv :: OMap.insertKV rest k v

/-- Python `dict.update` over a pair sequence. -/
def OMap.insertPairs (m : OMap) (l : List (FPath × RecordItem)) : OMap :=
  l.foldl (fun acc kv => OMap.insertKV acc kv.1 kv.2) m

/-- A dict built from a pair sequence (Python dict comprehension). -/
def OMap.ofPairs (l : List (FPath × RecordItem)) : OMap := OMap.insertPairs [] l

/-- Python `dict.values()`: values in key-insertion order. -/
def OMap.values (m : OMap) : List RecordItem := m.map (fun kv => kv.2)

/-- The well-formedness the installed set enjoys throughout `install`: keys
are distinct (a Python dict) and every stored entry is keyed by its own
path. -/
def OMapWF (m : OMap) : Prop :=
  (m.map (fun kv => kv.1)).Nodup ∧ ∀ kv ∈ m, kv.2.path = kv.1

/-- `_write_record` from `whl.py`: insert the manifest's self-entry (absent
hash and size) by key-overwrite, then serialize all entries of the
resulting set, in the set's order, into the manifest file through the
atomic writer. -/
def writeRecord (inst : Installer) (fs : FS) (directory : FPath)
    (installed_items : OMap) : FS × Option Err :=
  let record := DistInfo.record inst.distInfo
  let items' := OMap.insertKV installed_items record ⟨record, none, none⟩
  openAdjacentTmpForWrite inst.name fs (directory ++ record)
    (.ok (.record (OMap.values items')))

/-- The installation phases of the orchestrator; `install` records which of
them it invokes, in order.  `installDataDir` is the data-directory phase the
spec documents; in `whl.py` it exists only as a TODO comment. -/
inductive Phase where
  | extractDeclared
  | installDataDir
  | generateScripts
  | writeMetadata
  | writeRecordPhase
deriving DecidableEq

/-- Result of one installation run: final filesystem state, error if the
run aborted, and the sequence of phases the orchestrator invoked. -/
structure InstallResult where
  fs : FS
  err : Option Err
  trace : List Phase

/-- `install` from `whl.py`: extract the declared entries into a dict keyed
by path, merge the (empty) script-generation entries, merge the generated
metadata entries, and write the final manifest.  The trace mirrors the
phases the source body invokes: the declared-entry extraction, then (on
success) `_iter_installed_scripts`, `_write_additional_metadata` and
`_write_record`; no data-directory phase exists in the source (only a TODO
comment stands in its documented place). -/
def install (inst : Installer) (fs : FS) (directory : FPath) : InstallResult :=
  match iterInstalledRecordItems inst fs directory with
  | (fs1, .error e) => ⟨fs1, some e, [.extractDeclared]⟩
  | (fs1, .ok recItems) =>
      let items0 := OMap.ofPairs (recItems.map (fun r => (r.path, r)))
      let items1 := OMap.insertPairs items0
        ((iterInstalledScripts directory).map (fun r => (r.path, r)))
      let md := writeAdditionalMetadata inst fs1 directory
      let items2 := OMap.insertPairs items1 (md.2.map (fun r => (r.path, r)))
      let res := writeRecord inst md.1 directory items2
      ⟨res.1, res.2, [.extractDeclared, .generateScripts, .writeMetadata, .writeRecordPhase]⟩

/-- The installed set as it stands right before `_write_record`: declared
entries, then the (empty) script entries, then the generated metadata
entries, merged by key-overwrite. -/
def preRecordItems (inst : Installer) (directory : FPath)
    (decl : List RecordItem) : OMap :=
  let items0 := OMap.ofPairs (decl.map (fun r => (r.path, r)))
  let items1 := OMap.insertPairs items0
    ((iterInstalledScripts directory).map (fun r => (r.path, r)))
  OMap.insertPairs items1
    [(DistInfo.installer inst.distInfo, ⟨DistInfo.installer inst.distInfo, none, none⟩)]

/-- The final merged set serialized into the manifest: `preRecordItems`
with the self-entry inserted by key-overwrite. -/
def finalItems (inst : Installer) (directory : FPath)
    (decl : List RecordItem) : OMap :=
  OMap.insertKV (preRecordItems inst directory decl)
    (DistInfo.record inst.distInfo)
    ⟨DistInfo.record inst.distInfo, none, none⟩

/-- The state `install` reaches on the success path once extraction has
produced state `fs1`: the metadata write followed by the manifest write. -/
def installFinish (inst : Installer) (fs1 : FS) (directory : FPath)
    (decl : List RecordItem) : FS :=
  (writeRecord inst (writeAdditionalMetadata inst fs1 directory).1 directory
    (preRecordItems inst directory decl)).1

/-- Python `str.split(sep, maxsplit)` for a single-character separator over
the character list of the string: at most `maxsplit` splits, the remainder
kept whole in the last piece. -/
def splitCharMax (sep : Char) : Nat → List Char → List (List Char)
  | _, [] => [[]]
  | 0, s => [s]
  | m + 1, c :: rest =>
      if c = sep then [] :: splitCharMax sep m rest
      else
        match splitCharMax sep (m + 1) rest with
        | [] => [[c]]
        | head :: tail => (c :: head) :: tail

/-- Python `str.split(sep)` without a split limit. -/
def splitCharAll (sep : Char) : List Char → List (List Char)
  | [] => [[]]
  | c :: rest =>
      if c = sep then [] :: splitCharAll sep rest
      else
        match splitCharAll sep rest with
        | [] => [[c]]
        | head :: tail => (c :: head) :: tail

/-- The piece of the string before its first separator. -/
def headToSep (sep : Char) : List Char → List Char
  | [] => []
  | c :: rest => if c = sep then [] else c :: headToSep sep rest

/-- The rest of the string after its first separator. -/
def chopToSep (sep : Char) : List Char → List Char
  | [] => []
  | c :: rest => if c = sep then rest else chopToSep sep rest

/-- The top-level name of an archive entry:
`name.lstrip("/").split("/", 1)[0]` over the component list — drop leading
empty components, take the first remaining one. -/
def topLevelName (p : FPath) : String :=
  ((p.dropWhile (fun s => s = (""))).headD (""))

/-- Modelled from the spec: `DistInfo.find` from `installer.layouts` (not
under src/): derive the expected metadata-directory name from project name
and version and require exactly one of the top-level entry names to match
(the packaging-convention normalization is modelled as the conventional
name itself). -/
def DistInfo.find (projectName projectVersion : String)
    (entryNames : List String) : Except Err DistInfo :=
  let expected := projectName ++ ("-") ++ projectVersion ++ (".dist-info")
  match entryNames.dedup.filter (fun n => n = expected) with
  | [d] => .ok ⟨d⟩
  | _ => .error .metadataResolution

/-- `ZipFileInstaller.from_wheel_path` from `whl.py`: split the wheel file
name's stem on `-` with maxsplit 2 and unpack into project name, version
and remainder (a `ValueError` when fewer than three pieces result), and
only then open the archive (`none` models an unreadable archive) and
resolve the metadata directory from the top-level entry names. -/
def fromWheelPath (hashFn : String → Content → String) (name : String)
    (stem : List Char) (zfOpen : Option Zip) : Except Err Installer :=
  match splitCharMax ('-') 2 stem with
  | [projectName, projectVersion, _] =>
      match zfOpen with
      | none => .error .badArchive
      | some zf =>
          (DistInfo.find projectName.asString projectVersion.asString
            (zf.entries.map (fun e => topLevelName e.1))).map
            (fun di => ⟨name, di, zf, hashFn⟩)
  | _ => .error .valueError

/-- The attributes the class `ZipFileInstaller` defines in `whl.py`
(methods and classmethods). -/
def zipFileInstallerClassAttrs : List String :=
  [("from_wheel_path"), ("_open_adjacent_tmp_for_write"),
   ("_open_target_for_write"), ("_open_csv_for_write"),
   ("_install_record_item"), ("_iter_installed_record_items"),
   ("_iter_installed_scripts"), ("_write_additional_metadata"),
   ("_write_record"), ("install")]

/-- The default of the `--installer` command-line option. -/
def defaultInstallerName : String := ("pypa-installer")

/-- `main` from `whl.py`: after argument parsing it evaluates
`ZipFileInstaller.create(...)`.  The class defines no `create` attribute,
so the lookup raises `AttributeError` before anything else runs; the branch
taken when the attribute existed models the evidently intended classmethod
(`from_wheel_path`) followed by `install`, but is unreachable. -/
def mainModel (hashFn : String → Content → String) (wheelStem : List Char)
    (zfOpen : Option Zip) (dest : FPath) (installerName : String)
    (fs : FS) : FS × Except Err Unit :=
  if ("create") ∈ zipFileInstallerClassAttrs then
    match fromWheelPath hashFn installerName wheelStem zfOpen with
    | .error e => (fs, .error e)
    | .ok inst =>
        let r := install inst fs dest
        (r.fs, match r.err with | none => .ok () | some e => .error e)
  else (fs, .error .attributeError)

/-- A concrete hash family for witnesses: the digest of a content is the
content's own text. -/
def hashFnEx : String → Content → String
  | _, .binary s => s
  | _, .text s => s
  | _, .record _ => ("")

/-- Concrete metadata directory name for witnesses. -/
def distDirEx : String := ("pkg-1.0.dist-info")

/-- A declared entry with a matching hash, for witnesses. -/
def itemGood : RecordItem := ⟨[("pkg"), ("m.py")], some (("id"), ("x")), some 1⟩

/-- A concrete archive: a manifest declaring `itemGood`, and the payload. -/
def zipEx : Zip :=
  ⟨[([distDirEx, ("RECORD")], .record [itemGood]),
    ([("pkg"), ("m.py")], .binary ("x"))]⟩

/-- A concrete installer over `zipEx`. -/
def instEx : Installer := ⟨("toolX"), ⟨distDirEx⟩, zipEx, hashFnEx⟩

/-- A concrete archive whose manifest declares nothing. -/
def zipEx2 : Zip := ⟨[([distDirEx, ("RECORD")], .record [])]⟩

/-- A concrete installer over `zipEx2`. -/
def instEx2 : Installer := ⟨("toolY"), ⟨distDirEx⟩, zipEx2, hashFnEx⟩

/-- The empty filesystem. -/
def fsEmpty : FS := ⟨[], []⟩

/-- A concrete destination directory. -/
def dirEx : FPath := [("D")]

/-- A declared entry whose recorded digest does not match the archive
content at its path. -/
def itemBad : RecordItem := ⟨[("pkg"), ("m.py")], some (("id"), ("y")), some 1⟩

/-- An archive declaring the same path twice: first with a matching hash,
then with a mismatching one. -/
def zipCex : Zip :=
  ⟨[([distDirEx, ("RECORD")], .record [itemGood, itemBad]),
    ([("pkg"), ("m.py")], .binary ("x"))]⟩

/-- A concrete installer over `zipCex`. -/
def instCex : Installer := ⟨("toolZ"), ⟨distDirEx⟩, zipCex, hashFnEx⟩

/-- An archive declaring only the mismatched entry. -/
def zipC1 : Zip :=
  ⟨[([distDirEx, ("RECORD")], .record [itemBad]),
    ([("pkg"), ("m.py")], .binary ("x"))]⟩

/-- A concrete installer over `zipC1`. -/
def instC1 : Installer := ⟨("toolW"), ⟨distDirEx⟩, zipC1, hashFnEx⟩

/-- A wheel-file stem with fewer than two dashes. -/
def stemBadEx : List Char := ("pkg1.0").toList

/-- A wheel-file stem with at least two dashes. -/
def stemGoodEx : List Char := ("pkg-1.0-py3-none-any").toList

/-- A concrete target path for witnesses. -/
def pathEx : FPath := [("D"), ("pkg"), ("m.py")]

/-- A concrete content for witnesses. -/
def contentEx : Content := .binary ("x")

theorem lookupPC_cons (e : FPath × Content) (rest : List (FPath × Content)) (p : FPath) :
    lookupPC (e :: rest) p = if e.1 = p then some e.2 else lookupPC rest p := rfl

theorem tempOf_ne (path : FPath) (name : String) : tempOf path name ≠ path := by
  rcases List.eq_nil_or_concat path with h | ⟨xs, a, h⟩
  · subst h
    intro hc
    exact (List.cons_ne_nil _ _) hc
  · subst h
    simp only [tempOf, FPath.withName, FPath.name, List.concat_eq_append,
      List.dropLast_concat, List.reverse_append, List.reverse_cons,
      List.reverse_nil, List.nil_append, List.cons_append, List.headD_cons]
    intro hc
    have h2 := List.append_inj_right hc rfl
    have h3 : a ++ (".tmp.") ++ name = a := by
      simpa using h2
    have h4 := congrArg String.length h3
    simp only [String.length_append] at h4
    have h5 : (".tmp.").length = 5 := by decide
    omega

theorem FS.get_setFile_self (fs : FS) (p : FPath) (c : Content) :
    FS.get (FS.setFile fs p c) p = some c := by
  simp [FS.get, FS.setFile, lookupPC]

theorem FS.get_setFile_ne (fs : FS) (p q : FPath) (c : Content) (h : q ≠ p) :
    FS.get (FS.setFile fs p c) q = FS.get fs q := by
  simp [FS.get, FS.setFile, lookupPC, Ne.symm h]

theorem lookupPC_removeAll_self (l : List (FPath × Content)) (p : FPath) :
    lookupPC (removeAllPC l p) p = none := by
  induction l with
  | nil => rfl
  | cons e rest ih =>
      by_cases h : e.1 = p
      · simpa [removeAllPC, h] using ih
      · simpa [removeAllPC, h, lookupPC] using ih

theorem lookupPC_removeAll_ne (l : List (FPath × Content)) (p q : FPath) (h : q ≠ p) :
    lookupPC (removeAllPC l p) q = lookupPC l q := by
  induction l with
  | nil => rfl
  | cons e rest ih =>
      by_cases he : e.1 = p
      · have hq : ¬ (p = q) := fun hc => h hc.symm
        simpa [removeAllPC, he, lookupPC, hq] using ih
      · by_cases heq : e.1 = q
        · simp [removeAllPC, he, lookupPC, heq, h]
        · simpa [removeAllPC, he, lookupPC, heq] using ih

theorem FS.get_removeFile_self (fs : FS) (p : FPath) :
    FS.get (FS.removeFile fs p) p = none :=
  lookupPC_removeAll_self fs.files p

theorem FS.get_removeFile_ne (fs : FS) (p q : FPath) (h : q ≠ p) :
    FS.get (FS.removeFile fs p) q = FS.get fs q :=
  lookupPC_removeAll_ne fs.files p q h

theorem FS.get_makedirsExistOk (fs : FS) (p q : FPath) :
    FS.get (makedirsExistOk fs p) q = FS.get fs q := by
  unfold makedirsExistOk FS.makedirs
  by_cases h : p ∈ fs.dirs <;> simp [h, FS.get]

theorem FS.dirs_setFile (fs : FS) (p : FPath) (c : Content) :
    (FS.setFile fs p c).dirs = fs.dirs := rfl

theorem FS.dirs_removeFile (fs : FS) (p : FPath) :
    (FS.removeFile fs p).dirs = fs.dirs := rfl

theorem FS.dirs_replaceFile (fs : FS) (src dst : FPath) :
    (FS.replaceFile fs src dst).dirs = fs.dirs := by
  unfold FS.replaceFile
  cases h : FS.get fs src <;> simp [FS.setFile, FS.removeFile]

theorem makedirsExistOk_eq (fs : FS) (p : FPath) :
    makedirsExistOk fs p =
      if p ∈ fs.dirs then fs else { fs with dirs := pathPrefixes p ++ fs.dirs } := by
  unfold makedirsExistOk FS.makedirs
  by_cases hd : p ∈ fs.dirs <;> simp [hd]

theorem mem_dirs_makedirsExistOk (fs : FS) (p : FPath) (h : p ≠ []) :
    p ∈ (makedirsExistOk fs p).dirs := by
  rw [makedirsExistOk_eq]
  by_cases hd : p ∈ fs.dirs
  · simp [hd]
  · simp only [hd, if_neg, ite_false]
    apply List.mem_append.mpr
    left
    unfold pathPrefixes
    apply List.mem_map.mpr
    refine ⟨p.length - 1, List.mem_range.mpr ?_, ?_⟩
    · have : 0 < p.length := List.length_pos.mpr h
      omega
    · have : p.length - 1 + 1 = p.length := by
        have : 0 < p.length := List.length_pos.mpr h
        omega
      rw [this, List.take_length]

theorem dirs_mono_makedirsExistOk (fs : FS) (p d : FPath) (h : d ∈ fs.dirs) :
    d ∈ (makedirsExistOk fs p).dirs := by
  rw [makedirsExistOk_eq]
  by_cases hd : p ∈ fs.dirs
  · simpa [hd] using h
  · simp only [hd, ite_false]
    exact List.mem_append.mpr (Or.inr h)

theorem makedirsExistOk_idem (fs : FS) (p : FPath) :
    makedirsExistOk (makedirsExistOk fs p) p = makedirsExistOk fs p := by
  by_cases hd : p ∈ fs.dirs
  · have h1 : makedirsExistOk fs p = fs := by
      rw [makedirsExistOk_eq]
      simp [hd]
    rw [h1, h1]
  · rcases List.eq_nil_or_concat p with hp | ⟨xs, a, hp⟩
    · have h1 : makedirsExistOk fs p =
          { fs with dirs := pathPrefixes p ++ fs.dirs } := by
        rw [makedirsExistOk_eq]
        simp [hd]
      subst hp
      have h2 : pathPrefixes ([] : FPath) = [] := rfl
      rw [h1, makedirsExistOk_eq]
      simp only [h2, List.nil_append]
      by_cases h3 : ([] : FPath) ∈ fs.dirs
      · exact absurd h3 hd
      · simp [h3]
    · have hne : p ≠ [] := by
        subst hp
        simp
      have h2 : p ∈ (makedirsExistOk fs p).dirs := mem_dirs_makedirsExistOk fs p hne
      rw [makedirsExistOk_eq (makedirsExistOk fs p) p]
      simp [h2]

theorem writerOk_err (name : String) (fs : FS) (path : FPath) (c : Content) :
    (openAdjacentTmpForWrite name fs path (.ok c)).2 = none := rfl

theorem writerOk_get_target (name : String) (fs : FS) (path : FPath) (c : Content) :
    FS.get (openAdjacentTmpForWrite name fs path (.ok c)).1 path = some c := by
  unfold openAdjacentTmpForWrite
  have h : FS.get (FS.setFile (makedirsExistOk fs (FPath.parent path)) (tempOf path name) c)
      (tempOf path name) = some c := FS.get_setFile_self _ _ _
  simp only [FS.replaceFile, h]
  exact FS.get_setFile_self _ _ _

theorem writerOk_get_temp (name : String) (fs : FS) (path : FPath) (c : Content) :
    FS.get (openAdjacentTmpForWrite name fs path (.ok c)).1 (tempOf path name) = none := by
  unfold openAdjacentTmpForWrite
  have h : FS.get (FS.setFile (makedirsExistOk fs (FPath.parent path)) (tempOf path name) c)
      (tempOf path name) = some c := FS.get_setFile_self _ _ _
  simp only [FS.replaceFile, h]
  rw [FS.get_setFile_ne _ _ _ _ (tempOf_ne path name)]
  rw [FS.get_removeFile_ne _ _ _ (tempOf_ne path name)]
  exact FS.get_removeFile_self _ _

theorem writerOk_get_other (name : String) (fs : FS) (path q : FPath) (c : Content)
    (hq1 : q ≠ path) (hq2 : q ≠ tempOf path name) :
    FS.get (openAdjacentTmpForWrite name fs path (.ok c)).1 q = FS.get fs q := by
  unfold openAdjacentTmpForWrite
  have h : FS.get (FS.setFile (makedirsExistOk fs (FPath.parent path)) (tempOf path name) c)
      (tempOf path name) = some c := FS.get_setFile_self _ _ _
  simp only [FS.replaceFile, h]
  rw [FS.get_setFile_ne _ _ _ _ hq1]
  rw [FS.get_removeFile_ne _ _ _ hq1]
  rw [FS.get_removeFile_ne _ _ _ hq2]
  rw [FS.get_setFile_ne _ _ _ _ hq2]
  exact FS.get_makedirsExistOk _ _ _

theorem writerOk_dirs (name : String) (fs : FS) (path : FPath) (c : Content) :
    (openAdjacentTmpForWrite name fs path (.ok c)).1.dirs =
      (makedirsExistOk fs (FPath.parent path)).dirs := by
  unfold openAdjacentTmpForWrite
  rw [FS.dirs_replaceFile, FS.dirs_setFile]

theorem writerFail_spec (name : String) (fs : FS) (path : FPath)
    (part : Content) (e : Err) :
    (openAdjacentTmpForWrite name fs path (.fail part e)).2 = some e
    ∧ FS.get (openAdjacentTmpForWrite name fs path (.fail part e)).1 path = FS.get fs path
    ∧ FS.get (openAdjacentTmpForWrite name fs path (.fail part e)).1 (tempOf path name)
        = some part := by
  refine ⟨rfl, ?_, ?_⟩
  · unfold openAdjacentTmpForWrite
    rw [FS.get_setFile_ne _ _ _ _ (Ne.symm (tempOf_ne path name))]
    exact FS.get_makedirsExistOk _ _ _
  · exact FS.get_setFile_self _ _ _

/-- C2: the atomic file writer never makes a partially written file
observable at the target path.  If the writer body fails, the error
propagates, the target path keeps exactly its previous content (or absence)
— though the temporary file remains on disk with the partial content; only
on successful completion does the target path hold the complete new
content. -/
theorem atomic_writer_target_never_partial (name : String) (fs : FS)
    (path : FPath) (part c : Content) (e : Err) :
    (openAdjacentTmpForWrite name fs path (.fail part e)).2 = some e
    ∧ FS.get (openAdjacentTmpForWrite name fs path (.fail part e)).1 path = FS.get fs path
    ∧ FS.get (openAdjacentTmpForWrite name fs path (.fail part e)).1 (tempOf path name)
        = some part
    ∧ (openAdjacentTmpForWrite name fs path (.ok c)).2 = none
    ∧ FS.get (openAdjacentTmpForWrite name fs path (.ok c)).1 path = some c := by
  obtain ⟨h1, h2, h3⟩ := writerFail_spec name fs path part e
  exact ⟨h1, h2, h3, writerOk_err name fs path c, writerOk_get_target name fs path c⟩

/-- C7: on every write, the atomic writer first ensures the parent
directories of the target exist (idempotently, tolerating already-exists:
existing directories are kept and the operation is a no-op when repeated),
creates the temporary file in the same directory as the target with the
target's name extended by the fixed ".tmp." suffix plus the installer
identity, writes the full content there, and atomically renames it onto the
target: afterwards the target holds the content, the temporary file is
gone, and no other path changed. -/
theorem atomic_writer_algorithm (name : String) (fs : FS) (path : FPath)
    (c : Content) :
    (openAdjacentTmpForWrite name fs path (.ok c)).2 = none
    ∧ FPath.parent (tempOf path name) = FPath.parent path
    ∧ FPath.name (tempOf path name) = FPath.name path ++ (".tmp.") ++ name
    ∧ FS.get (openAdjacentTmpForWrite name fs path (.ok c)).1 path = some c
    ∧ FS.get (openAdjacentTmpForWrite name fs path (.ok c)).1 (tempOf path name) = none
    ∧ (∀ q : FPath, q ≠ path → q ≠ tempOf path name →
        FS.get (openAdjacentTmpForWrite name fs path (.ok c)).1 q = FS.get fs q)
    ∧ (FPath.parent path ≠ [] →
        FPath.parent path ∈ (openAdjacentTmpForWrite name fs path (.ok c)).1.dirs)
    ∧ (∀ d ∈ fs.dirs, d ∈ (openAdjacentTmpForWrite name fs path (.ok c)).1.dirs)
    ∧ makedirsExistOk (makedirsExistOk fs (FPath.parent path)) (FPath.parent path)
        = makedirsExistOk fs (FPath.parent path) := by
  refine ⟨writerOk_err name fs path c, ?_, ?_,
    writerOk_get_target name fs path c, writerOk_get_temp name fs path c,
    fun q hq1 hq2 => writerOk_get_other name fs path q c hq1 hq2, ?_, ?_,
    makedirsExistOk_idem fs (FPath.parent path)⟩
  · simp [tempOf, FPath.withName, FPath.parent, List.dropLast_concat]
  · simp [tempOf, FPath.withName, FPath.name, List.reverse_append]
  · intro h
    rw [writerOk_dirs]
    exact mem_dirs_makedirsExistOk fs (FPath.parent path) h
  · intro d hd
    rw [writerOk_dirs]
    exact dirs_mono_makedirsExistOk fs (FPath.parent path) d hd

/-- Witness for C7 at a concrete write. -/
theorem atomic_writer_algorithm_witness :
    FS.get (openAdjacentTmpForWrite ("n") fsEmpty pathEx (.ok contentEx)).1 pathEx
      = some contentEx
    ∧ FPath.parent pathEx ∈ (openAdjacentTmpForWrite ("n") fsEmpty pathEx (.ok contentEx)).1.dirs
    ∧ FS.get (openAdjacentTmpForWrite ("n") fsEmpty pathEx (.ok contentEx)).1
        [("D"), ("other")] = FS.get fsEmpty [("D"), ("other")] := by
  obtain ⟨-, -, -, h4, -, h6, h7, -, -⟩ := atomic_writer_algorithm ("n") fsEmpty pathEx contentEx
  exact ⟨h4, h7 (by decide), h6 [("D"), ("other")] (by decide) (by decide)⟩

theorem OMap.lookup_insertKV_self (m : OMap) (k : FPath) (v : RecordItem) :
    OMap.lookup (OMap.insertKV m k v) k = some v := by
  induction m with
  | nil => simp [OMap.insertKV, OMap.lookup]
  | cons kv rest ih =>
      by_cases hk : kv.1 = k <;> simp [OMap.insertKV, OMap.lookup, hk, ih]

theorem OMap.lookup_insertKV_ne (m : OMap) (k q : FPath) (v : RecordItem)
    (h : q ≠ k) : OMap.lookup (OMap.insertKV m k v) q = OMap.lookup m q := by
  induction m with
  | nil => simp [OMap.insertKV, OMap.lookup, Ne.symm h]
  | cons kv rest ih =>
      by_cases hk : kv.1 = k
      · have hq : ¬ (k = q) := fun hc => h hc.symm
        have hkq : ¬ (kv.1 = q) := by
          rw [hk]
          exact hq
        simp [OMap.insertKV, OMap.lookup, hk, hq, hkq]
      · by_cases hkq : kv.1 = q <;>
          simp [OMap.insertKV, OMap.lookup, hk, hkq, ih, h]

theorem OMap.values_cons (kv : FPath × RecordItem) (rest : OMap) :
    OMap.values (kv :: rest) = kv.2 :: OMap.values rest := rfl

theorem OMap.insertKV_cons (kv : FPath × RecordItem) (rest : OMap)
    (k : FPath) (v : RecordItem) :
    OMap.insertKV (kv :: rest) k v =
      if kv.1 = k then (k, v) :: rest else kv :: OMap.insertKV rest k v := rfl

theorem OMap.mem_values_insertKV (m : OMap) (k : FPath) (v r : RecordItem)
    (h : r ∈ OMap.values (OMap.insertKV m k v)) : r = v ∨ r ∈ OMap.values m := by
  induction m with
  | nil =>
      rw [show OMap.insertKV [] k v = [(k, v)] from rfl] at h
      rcases List.mem_cons.mp h with h | h
      · exact Or.inl h
      · exact absurd h (List.not_mem_nil r)
  | cons kv rest ih =>
      by_cases hk : kv.1 = k
      · rw [OMap.insertKV_cons, if_pos hk, OMap.values_cons] at h
        rcases List.mem_cons.mp h with h | h
        · exact Or.inl h
        · exact Or.inr (by rw [OMap.values_cons]; exact List.mem_cons_of_mem _ h)
      · rw [OMap.insertKV_cons, if_neg hk, OMap.values_cons] at h
        rcases List.mem_cons.mp h with h | h
        · exact Or.inr (by rw [OMap.values_cons, h]; exact List.mem_cons_self _ _)
        · rcases ih h with h' | h'
          · exact Or.inl h'
          · exact Or.inr (by rw [OMap.values_cons]; exact List.mem_cons_of_mem _ h')

theorem OMap.mem_values_insertPairs (l : List (FPath × RecordItem)) (m : OMap)
    (r : RecordItem) (h : r ∈ OMap.values (OMap.insertPairs m l)) :
    r ∈ OMap.values m ∨ r ∈ l.map (fun kv => kv.2) := by
  induction l generalizing m with
  | nil => exact Or.inl (by simpa [OMap.insertPairs] using h)
  | cons p l ih =>
      have h1 : OMap.insertPairs m (p :: l) =
          OMap.insertPairs (OMap.insertKV m p.1 p.2) l := rfl
      rw [h1] at h
      rcases ih (OMap.insertKV m p.1 p.2) h with h' | h'
      · rcases OMap.mem_values_insertKV m p.1 p.2 r h' with h'' | h''
        · exact Or.inr (by rw [List.map_cons, h'']; exact List.mem_cons_self _ _)
        · exact Or.inl h''
      · exact Or.inr (by rw [List.map_cons]; exact List.mem_cons_of_mem _ h')

theorem OMap.keys_cons (kv : FPath × RecordItem) (rest : OMap) :
    (kv :: rest).map (fun kv => kv.1) = kv.1 :: rest.map (fun kv => kv.1) := rfl

theorem OMap.mem_keys_insertKV (m : OMap) (k a : FPath) (v : RecordItem)
    (h : a ∈ (OMap.insertKV m k v).map (fun kv => kv.1)) :
    a = k ∨ a ∈ m.map (fun kv => kv.1) := by
  induction m with
  | nil =>
      rw [show OMap.insertKV [] k v = [(k, v)] from rfl] at h
      rcases List.mem_cons.mp h with h | h
      · exact Or.inl h
      · exact absurd h (List.not_mem_nil a)
  | cons kv rest ih =>
      by_cases hk : kv.1 = k
      · rw [OMap.insertKV_cons, if_pos hk, OMap.keys_cons] at h
        rcases List.mem_cons.mp h with h | h
        · exact Or.inl h
        · exact Or.inr (by rw [OMap.keys_cons]; exact List.mem_cons_of_mem _ h)
      · rw [OMap.insertKV_cons, if_neg hk, OMap.keys_cons] at h
        rcases List.mem_cons.mp h with h | h
        · exact Or.inr (by rw [OMap.keys_cons, h]; exact List.mem_cons_self _ _)
        · rcases ih h with h' | h'
          · exact Or.inl h'
          · exact Or.inr (by rw [OMap.keys_cons]; exact List.mem_cons_of_mem _ h')

theorem OMapWF_insertKV (m : OMap) (k : FPath) (v : RecordItem)
    (hwf : OMapWF m) (hv : v.path = k) : OMapWF (OMap.insertKV m k v) := by
  induction m with
  | nil =>
      constructor
      · simp [OMap.insertKV]
      · intro kv hkv
        simp [OMap.insertKV] at hkv
        simp [hkv, hv]
  | cons kv rest ih =>
      obtain ⟨hnd, hpaths⟩ := hwf
      rw [OMap.keys_cons, List.nodup_cons] at hnd
      by_cases hk : kv.1 = k
      · constructor
        · rw [OMap.insertKV_cons, if_pos hk, OMap.keys_cons, List.nodup_cons]
          refine ⟨?_, hnd.2⟩
          rw [← hk]
          exact hnd.1
        · intro e he
          rw [OMap.insertKV_cons, if_pos hk] at he
          rcases List.mem_cons.mp he with he | he
          · simp [he, hv]
          · exact hpaths e (List.mem_cons_of_mem _ he)
      · have hwfRest : OMapWF rest :=
          ⟨hnd.2, fun e he => hpaths e (List.mem_cons_of_mem _ he)⟩
        obtain ⟨ihnd, ihpaths⟩ := ih hwfRest
        constructor
        · rw [OMap.insertKV_cons, if_neg hk, OMap.keys_cons, List.nodup_cons]
          refine ⟨?_, ihnd⟩
          intro hc
          rcases OMap.mem_keys_insertKV rest k kv.1 v hc with h' | h'
          · exact hk h'
          · exact hnd.1 h'
        · intro e he
          rw [OMap.insertKV_cons, if_neg hk] at he
          rcases List.mem_cons.mp he with he | he
          · exact hpaths e (by rw [he]; exact List.mem_cons_self _ _)
          · exact ihpaths e he

theorem OMapWF_insertPairs (l : List (FPath × RecordItem)) (m : OMap)
    (hwf : OMapWF m) (hl : ∀ kv ∈ l, kv.2.path = kv.1) :
    OMapWF (OMap.insertPairs m l) := by
  induction l generalizing m with
  | nil => simpa [OMap.insertPairs] using hwf
  | cons p l ih =>
      have h1 : OMap.insertPairs m (p :: l) =
          OMap.insertPairs (OMap.insertKV m p.1 p.2) l := rfl
      rw [h1]
      exact ih (OMap.insertKV m p.1 p.2)
        (OMapWF_insertKV m p.1 p.2 hwf (hl p (List.mem_cons_self _ _)))
        (fun kv hkv => hl kv (List.mem_cons_of_mem _ hkv))

theorem OMapWF_ofPairs_paths (decl : List RecordItem) :
    OMapWF (OMap.ofPairs (decl.map (fun r => (r.path, r)))) := by
  apply OMapWF_insertPairs
  · exact ⟨List.nodup_nil, by simp⟩
  · intro kv hkv
    simp only [List.mem_map] at hkv
    obtain ⟨r, -, hr⟩ := hkv
    simp [← hr]

theorem OMap.lookup_mem (m : OMap) (k : FPath) (v : RecordItem)
    (h : OMap.lookup m k = some v) : (k, v) ∈ m := by
  induction m with
  | nil => simp [OMap.lookup] at h
  | cons kv rest ih =>
      by_cases hk : kv.1 = k
      · simp only [OMap.lookup, hk, if_pos, Option.some.injEq] at h
        have : (k, v) = kv := by
          rw [← hk, ← h]
        simp [this]
      · simp only [OMap.lookup, hk, if_neg, ite_false] at h
        exact List.mem_cons.mpr (Or.inr (ih h))

theorem OMap.filter_values_nil (m : OMap) (k : FPath)
    (h : ∀ kv ∈ m, ¬ (kv.2.path = k)) :
    (OMap.values m).filter (fun r => r.path = k) = [] := by
  induction m with
  | nil => rfl
  | cons kv rest ih =>
      have h1 : ¬ (kv.2.path = k) := h kv (List.mem_cons_self _ _)
      rw [OMap.values_cons, List.filter_cons, if_neg (by simpa using h1)]
      exact ih (fun e he => h e (List.mem_cons_of_mem _ he))

theorem OMap.filter_values_eq (m : OMap) (k : FPath) (v : RecordItem)
    (hwf : OMapWF m) (h : OMap.lookup m k = some v) :
    (OMap.values m).filter (fun r => r.path = k) = [v] := by
  induction m with
  | nil => simp [OMap.lookup] at h
  | cons kv rest ih =>
      obtain ⟨hnd, hpaths⟩ := hwf
      rw [OMap.keys_cons, List.nodup_cons] at hnd
      by_cases hk : kv.1 = k
      · simp only [OMap.lookup, hk, if_pos, Option.some.injEq] at h
        rw [OMap.values_cons, List.filter_cons]
        rw [if_pos (by simp [hpaths kv (List.mem_cons_self _ _), hk]), h]
        rw [OMap.filter_values_nil rest k ?_]
        intro e he
        rw [hpaths e (List.mem_cons_of_mem _ he)]
        intro hc
        refine hnd.1 ?_
        exact List.mem_map.mpr ⟨e, he, hc.trans hk.symm⟩
      · simp only [OMap.lookup, hk, if_neg, ite_false] at h
        have hwfRest : OMapWF rest :=
          ⟨hnd.2, fun e he => hpaths e (List.mem_cons_of_mem _ he)⟩
        have h1 : ¬ (kv.2.path = k) := by
          rw [hpaths kv (List.mem_cons_self _ _)]
          exact hk
        rw [OMap.values_cons, List.filter_cons, if_neg (by simpa using h1)]
        exact ih hwfRest h

theorem append_two_ne (dir : FPath) (d a b : String) (h : a ≠ b) :
    dir ++ [d, a] ≠ dir ++ [d, b] := by
  intro hc
  have h1 := List.append_cancel_left hc
  simp only [List.cons.injEq, and_true] at h1
  exact h h1.2

theorem record_ne_installer (di : DistInfo) :
    DistInfo.record di ≠ DistInfo.installer di := by
  unfold DistInfo.record DistInfo.installer
  exact append_two_ne [] di.directory ("RECORD") ("INSTALLER") (by decide)

theorem tempOf_append_two (dir : FPath) (d x name : String) :
    tempOf (dir ++ [d, x]) name = dir ++ [d, x ++ (".tmp.") ++ name] := by
  have h1 : dir ++ [d, x] = (dir ++ [d]) ++ [x] := by simp
  unfold tempOf FPath.withName FPath.name
  rw [h1, List.dropLast_concat, List.reverse_append]
  simp

theorem record_tmp_ne_installer (name : String) :
    ("RECORD") ++ (".tmp.") ++ name ≠ ("INSTALLER") := by
  intro hc
  have h2 := congrArg String.length hc
  rw [String.length_append, String.length_append] at h2
  have h3 : String.length ("RECORD") = 6 := by decide
  have h4 : String.length (".tmp.") = 5 := by decide
  have h5 : String.length ("INSTALLER") = 9 := by decide
  omega

theorem OMapWF_finalItems (inst : Installer) (dir : FPath)
    (decl : List RecordItem) : OMapWF (finalItems inst dir decl) := by
  unfold finalItems
  apply OMapWF_insertKV
  · unfold preRecordItems
    apply OMapWF_insertPairs
    · apply OMapWF_insertPairs
      · exact OMapWF_ofPairs_paths decl
      · intro kv hkv
        simp [iterInstalledScripts] at hkv
    · intro kv hkv
      simp only [List.mem_singleton] at hkv
      rw [hkv]
  · rfl

theorem installItems_ok_items (inst : Installer) (dir : FPath) :
    ∀ (l : List RecordItem) (fs fs' : FS) (items : List RecordItem),
      installItems inst fs dir l = (fs', .ok items) → items = l := by
  intro l
  induction l with
  | nil =>
      intro fs fs' items h
      simp only [installItems, Prod.mk.injEq, Except.ok.injEq] at h
      exact h.2.symm
  | cons item rest ih =>
      intro fs fs' items h
      rw [installItems] at h
      split at h
      · exact absurd h (by simp)
      · split at h
        · rename_i its hII
          simp only [Prod.mk.injEq, Except.ok.injEq] at h
          rw [← h.2, ih _ _ its hII]
        · exact absurd h (by simp)

theorem iterInstalled_eq_some (inst : Installer) (fs : FS) (dir : FPath)
    (c : Content) (hz : Zip.read inst.zip (DistInfo.record inst.distInfo) = some c) :
    iterInstalledRecordItems inst fs dir
      = installItems inst fs dir (parseRecordContent c) := by
  unfold iterInstalledRecordItems
  rw [hz]

theorem iterInstalled_eq_none (inst : Installer) (fs : FS) (dir : FPath)
    (hz : Zip.read inst.zip (DistInfo.record inst.distInfo) = none) :
    iterInstalledRecordItems inst fs dir
      = (fs, .error (.entryNotFound (DistInfo.record inst.distInfo))) := by
  unfold iterInstalledRecordItems
  rw [hz]

theorem install_eq_error (inst : Installer) (fs : FS) (dir : FPath)
    (fs1 : FS) (e : Err)
    (hiter : iterInstalledRecordItems inst fs dir = (fs1, .error e)) :
    install inst fs dir = ⟨fs1, some e, [.extractDeclared]⟩ := by
  unfold install
  rw [hiter]

theorem install_eq_ok (inst : Installer) (fs : FS) (dir : FPath)
    (fs1 : FS) (recItems : List RecordItem)
    (hiter : iterInstalledRecordItems inst fs dir = (fs1, .ok recItems)) :
    install inst fs dir =
      ⟨(writeRecord inst (writeAdditionalMetadata inst fs1 dir).1 dir
          (preRecordItems inst dir recItems)).1, none,
        [.extractDeclared, .generateScripts, .writeMetadata, .writeRecordPhase]⟩ := by
  unfold install
  rw [hiter]
  rfl

theorem install_succ (inst : Installer) (fs : FS) (dir : FPath)
    (h : (install inst fs dir).err = none) :
    ∃ c fs1, Zip.read inst.zip (DistInfo.record inst.distInfo) = some c
      ∧ installItems inst fs dir (parseRecordContent c)
          = (fs1, .ok (parseRecordContent c))
      ∧ install inst fs dir =
          ⟨installFinish inst fs1 dir (parseRecordContent c), none,
            [.extractDeclared, .generateScripts, .writeMetadata, .writeRecordPhase]⟩ := by
  cases hz : Zip.read inst.zip (DistInfo.record inst.distInfo) with
  | none =>
      exfalso
      rw [install_eq_error inst fs dir fs _ (iterInstalled_eq_none inst fs dir hz)] at h
      simp at h
  | some c =>
      cases hII : installItems inst fs dir (parseRecordContent c) with
      | mk fs1 res =>
          cases res with
          | error e =>
              exfalso
              rw [install_eq_error inst fs dir fs1 e
                ((iterInstalled_eq_some inst fs dir c hz).trans hII)] at h
              simp at h
          | ok items =>
              have hitems : items = parseRecordContent c :=
                installItems_ok_items inst dir (parseRecordContent c) fs fs1 items hII
              subst hitems
              exact ⟨c, fs1, rfl, hII,
                install_eq_ok inst fs dir fs1 _
                  ((iterInstalled_eq_some inst fs dir c hz).trans hII)⟩

theorem installFinish_get_record (inst : Installer) (fs1 : FS) (dir : FPath)
    (decl : List RecordItem) :
    FS.get (installFinish inst fs1 dir decl) (dir ++ DistInfo.record inst.distInfo)
      = some (.record (OMap.values (finalItems inst dir decl))) := by
  unfold installFinish writeRecord
  exact writerOk_get_target _ _ _ _

theorem installer_ne_record_target (dir : FPath) (di : DistInfo) :
    dir ++ DistInfo.installer di ≠ dir ++ DistInfo.record di := by
  unfold DistInfo.installer DistInfo.record
  exact append_two_ne dir di.directory ("INSTALLER") ("RECORD") (by decide)

theorem installer_ne_record_temp (dir : FPath) (di : DistInfo) (name : String) :
    dir ++ DistInfo.installer di ≠ tempOf (dir ++ DistInfo.record di) name := by
  unfold DistInfo.installer DistInfo.record
  rw [tempOf_append_two]
  exact append_two_ne dir di.directory ("INSTALLER")
    (("RECORD") ++ (".tmp.") ++ name)
    (fun hc => record_tmp_ne_installer name hc.symm)

theorem installFinish_get_installer (inst : Installer) (fs1 : FS) (dir : FPath)
    (decl : List RecordItem) :
    FS.get (installFinish inst fs1 dir decl) (dir ++ DistInfo.installer inst.distInfo)
      = some (.text inst.name) := by
  unfold installFinish writeRecord
  rw [writerOk_get_other inst.name _ (dir ++ DistInfo.record inst.distInfo)
    (dir ++ DistInfo.installer inst.distInfo) _
    (installer_ne_record_target dir inst.distInfo)
    (installer_ne_record_temp dir inst.distInfo inst.name)]
  unfold writeAdditionalMetadata
  exact writerOk_get_target _ _ _ _

theorem finalItems_lookup_record (inst : Installer) (dir : FPath)
    (decl : List RecordItem) :
    OMap.lookup (finalItems inst dir decl) (DistInfo.record inst.distInfo)
      = some ⟨DistInfo.record inst.distInfo, none, none⟩ :=
  OMap.lookup_insertKV_self _ _ _

theorem finalItems_lookup_installer (inst : Installer) (dir : FPath)
    (decl : List RecordItem) :
    OMap.lookup (finalItems inst dir decl) (DistInfo.installer inst.distInfo)
      = some ⟨DistInfo.installer inst.distInfo, none, none⟩ := by
  unfold finalItems
  rw [OMap.lookup_insertKV_ne _ _ _ _ (Ne.symm (record_ne_installer inst.distInfo))]
  exact OMap.lookup_insertKV_self _ _ _

theorem mem_values_ofPairs_paths (decl : List RecordItem) (r : RecordItem)
    (h : r ∈ OMap.values (OMap.ofPairs (decl.map (fun r => (r.path, r))))) :
    r ∈ decl := by
  rcases OMap.mem_values_insertPairs _ [] r h with h' | h'
  · exact absurd h' (List.not_mem_nil r)
  · simpa [List.map_map] using h'

theorem mem_finalItems_values (inst : Installer) (dir : FPath)
    (decl : List RecordItem) (r : RecordItem)
    (h : r ∈ OMap.values (finalItems inst dir decl))
    (h1 : r.path ≠ DistInfo.installer inst.distInfo)
    (h2 : r.path ≠ DistInfo.record inst.distInfo) : r ∈ decl := by
  rcases OMap.mem_values_insertKV _ _ _ _ h with h' | h'
  · exact absurd (congrArg RecordItem.path h') h2
  · rcases OMap.mem_values_insertPairs _ _ r h' with h'' | h''
    · exact mem_values_ofPairs_paths decl r h''
    · simp only [List.map_cons, List.map_nil, List.mem_singleton] at h''
      exact absurd (congrArg RecordItem.path h'') h1

/-- C3: after every successful installation the serialized manifest holds
exactly one self-entry, keyed by the manifest's own relative path, with
absent hash and size; the rows are the final merged set — the accumulated
set with the self-entry inserted by key-overwrite — in order. -/
theorem final_manifest_single_self_entry (inst : Installer) (st : FS)
    (dir : FPath) (h : (install inst st dir).err = none) :
    ∃ rows, FS.get (install inst st dir).fs (dir ++ DistInfo.record inst.distInfo)
        = some (.record rows)
      ∧ rows.filter (fun r => r.path = DistInfo.record inst.distInfo)
          = [⟨DistInfo.record inst.distInfo, none, none⟩]
      ∧ ∃ c, Zip.read inst.zip (DistInfo.record inst.distInfo) = some c
          ∧ rows = OMap.values (finalItems inst dir (parseRecordContent c)) := by
  obtain ⟨c, fs1, hz, hII, hinst⟩ := install_succ inst st dir h
  refine ⟨OMap.values (finalItems inst dir (parseRecordContent c)), ?_, ?_, c, hz, rfl⟩
  · rw [hinst]
    exact installFinish_get_record inst fs1 dir (parseRecordContent c)
  · exact OMap.filter_values_eq _ _ _ (OMapWF_finalItems inst dir _)
      (finalItems_lookup_record inst dir _)

/-- Witness for C3 at a concrete successful installation. -/
theorem final_manifest_single_self_entry_witness :
    ∃ rows, FS.get (install instEx fsEmpty dirEx).fs
        (dirEx ++ DistInfo.record instEx.distInfo) = some (.record rows)
      ∧ rows.filter (fun r => r.path = DistInfo.record instEx.distInfo)
          = [⟨DistInfo.record instEx.distInfo, none, none⟩]
      ∧ ∃ c, Zip.read instEx.zip (DistInfo.record instEx.distInfo) = some c
          ∧ rows = OMap.values (finalItems instEx dirEx (parseRecordContent c)) :=
  final_manifest_single_self_entry instEx fsEmpty dirEx (by decide)

/-- C4: merging is last-write-wins — inserting an entry for an existing key
replaces that key's value — so of two entries for the same path from
different phases the later phase's entry is in the final merged set (the
generated installer-identity entry and self-entry override any declared
entry at their paths), and the serialized rows are exactly the final merged
set in its insertion order. -/
theorem last_write_wins_row_order (inst : Installer) (st : FS) (dir : FPath)
    (decl : List RecordItem)
    (hrec : Zip.read inst.zip (DistInfo.record inst.distInfo) = some (.record decl))
    (h : (install inst st dir).err = none) :
    (∀ (m : OMap) (k : FPath) (v : RecordItem),
        OMap.lookup (OMap.insertKV m k v) k = some v)
    ∧ FS.get (install inst st dir).fs (dir ++ DistInfo.record inst.distInfo)
        = some (.record (OMap.values (finalItems inst dir decl)))
    ∧ OMap.lookup (finalItems inst dir decl) (DistInfo.installer inst.distInfo)
        = some ⟨DistInfo.installer inst.distInfo, none, none⟩
    ∧ OMap.lookup (finalItems inst dir decl) (DistInfo.record inst.distInfo)
        = some ⟨DistInfo.record inst.distInfo, none, none⟩ := by
  obtain ⟨c, fs1, hz, hII, hinst⟩ := install_succ inst st dir h
  have hc : c = .record decl := by
    have := hz.symm.trans hrec
    exact Option.some.inj this
  subst hc
  refine ⟨fun m k v => OMap.lookup_insertKV_self m k v, ?_,
    finalItems_lookup_installer inst dir decl,
    finalItems_lookup_record inst dir decl⟩
  rw [hinst]
  exact installFinish_get_record inst fs1 dir decl

/-- Witness for C4 at a concrete successful installation. -/
theorem last_write_wins_row_order_witness :
    FS.get (install instEx fsEmpty dirEx).fs (dirEx ++ DistInfo.record instEx.distInfo)
        = some (.record (OMap.values (finalItems instEx dirEx [itemGood])))
    ∧ OMap.lookup (finalItems instEx dirEx [itemGood]) (DistInfo.installer instEx.distInfo)
        = some ⟨DistInfo.installer instEx.distInfo, none, none⟩ := by
  obtain ⟨-, h2, h3, -⟩ :=
    last_write_wins_row_order instEx fsEmpty dirEx [itemGood] (by decide) (by decide)
  exact ⟨h2, h3⟩

/-- C5 counterexample: a successful installation of an archive whose
manifest declares nothing produces a final manifest whose installer-identity
entry — a different path than the self-entry — also has both hash and size
absent, so the self-entry is not the only such entry. -/
theorem self_entry_not_only_absent :
    (install instEx2 fsEmpty dirEx).err = none
    ∧ FS.get (install instEx2 fsEmpty dirEx).fs
        (dirEx ++ DistInfo.record instEx2.distInfo)
        = some (.record [⟨[distDirEx, ("INSTALLER")], none, none⟩,
            ⟨[distDirEx, ("RECORD")], none, none⟩])
    ∧ ([distDirEx, ("INSTALLER")] : FPath) ≠ [distDirEx, ("RECORD")] := by
  decide

/-- C5 amended: in the final manifest both the self-entry and the generated
installer-identity entry have hash and size absent (each is the unique
entry at its path), and every other row is an entry declared in the source
manifest, carried unchanged. -/
theorem generated_entries_absent_rest_declared (inst : Installer) (st : FS)
    (dir : FPath) (decl : List RecordItem)
    (hrec : Zip.read inst.zip (DistInfo.record inst.distInfo) = some (.record decl))
    (h : (install inst st dir).err = none) :
    ∃ rows, FS.get (install inst st dir).fs (dir ++ DistInfo.record inst.distInfo)
        = some (.record rows)
      ∧ rows.filter (fun r => r.path = DistInfo.installer inst.distInfo)
          = [⟨DistInfo.installer inst.distInfo, none, none⟩]
      ∧ rows.filter (fun r => r.path = DistInfo.record inst.distInfo)
          = [⟨DistInfo.record inst.distInfo, none, none⟩]
      ∧ ∀ r ∈ rows, r.path ≠ DistInfo.installer inst.distInfo →
          r.path ≠ DistInfo.record inst.distInfo → r ∈ decl := by
  obtain ⟨c, fs1, hz, hII, hinst⟩ := install_succ inst st dir h
  have hc : c = .record decl := by
    have := hz.symm.trans hrec
    exact Option.some.inj this
  subst hc
  refine ⟨OMap.values (finalItems inst dir decl), ?_, ?_, ?_, ?_⟩
  · rw [hinst]
    exact installFinish_get_record inst fs1 dir decl
  · exact OMap.filter_values_eq _ _ _ (OMapWF_finalItems inst dir _)
      (finalItems_lookup_installer inst dir decl)
  · exact OMap.filter_values_eq _ _ _ (OMapWF_finalItems inst dir _)
      (finalItems_lookup_record inst dir decl)
  · intro r hr h1 h2
    exact mem_finalItems_values inst dir decl r hr h1 h2

/-- Witness for the amended C5 at a concrete successful installation. -/
theorem generated_entries_absent_rest_declared_witness :
    ∃ rows, FS.get (install instEx fsEmpty dirEx).fs
        (dirEx ++ DistInfo.record instEx.distInfo) = some (.record rows)
      ∧ rows.filter (fun r => r.path = DistInfo.installer instEx.distInfo)
          = [⟨DistInfo.installer instEx.distInfo, none, none⟩]
      ∧ rows.filter (fun r => r.path = DistInfo.record instEx.distInfo)
          = [⟨DistInfo.record instEx.distInfo, none, none⟩]
      ∧ ∀ r ∈ rows, r.path ≠ DistInfo.installer instEx.distInfo →
          r.path ≠ DistInfo.record instEx.distInfo → r ∈ [itemGood] :=
  generated_entries_absent_rest_declared instEx fsEmpty dirEx [itemGood]
    (by decide) (by decide)

/-- C6: every successful installation writes the installer-identity file at
its fixed location under the metadata directory, with content exactly the
configured installer-identity string, and the final manifest holds exactly
one entry for it, with absent hash and size. -/
theorem installer_identity_file (inst : Installer) (st : FS) (dir : FPath)
    (h : (install inst st dir).err = none) :
    FS.get (install inst st dir).fs (dir ++ DistInfo.installer inst.distInfo)
        = some (.text inst.name)
    ∧ ∃ rows, FS.get (install inst st dir).fs (dir ++ DistInfo.record inst.distInfo)
          = some (.record rows)
        ∧ rows.filter (fun r => r.path = DistInfo.installer inst.distInfo)
            = [⟨DistInfo.installer inst.distInfo, none, none⟩] := by
  obtain ⟨c, fs1, hz, hII, hinst⟩ := install_succ inst st dir h
  refine ⟨?_, OMap.values (finalItems inst dir (parseRecordContent c)), ?_, ?_⟩
  · rw [hinst]
    exact installFinish_get_installer inst fs1 dir (parseRecordContent c)
  · rw [hinst]
    exact installFinish_get_record inst fs1 dir (parseRecordContent c)
  · exact OMap.filter_values_eq _ _ _ (OMapWF_finalItems inst dir _)
      (finalItems_lookup_installer inst dir _)

/-- Witness for C6 at a concrete successful installation. -/
theorem installer_identity_file_witness :
    FS.get (install instEx fsEmpty dirEx).fs (dirEx ++ DistInfo.installer instEx.distInfo)
        = some (.text instEx.name)
    ∧ ∃ rows, FS.get (install instEx fsEmpty dirEx).fs
          (dirEx ++ DistInfo.record instEx.distInfo) = some (.record rows)
        ∧ rows.filter (fun r => r.path = DistInfo.installer instEx.distInfo)
            = [⟨DistInfo.installer instEx.distInfo, none, none⟩] :=
  installer_identity_file instEx fsEmpty dirEx (by decide)

/-- C8 counterexample: a successful installation whose phase trace does not
contain the data-directory phase: `install` never invokes it (in the source
it exists only as a TODO comment), so the claim that the orchestrator calls
both placeholder phases is false. -/
theorem data_dir_phase_not_called :
    (install instEx2 fsEmpty dirEx).err = none
    ∧ Phase.installDataDir ∉ (install instEx2 fsEmpty dirEx).trace := by
  decide

/-- C8 amended: the script-generation placeholder contributes zero entries
and is invoked between declared-file extraction and generated-metadata
writing; the data-directory phase is never invoked (it exists only as a
TODO comment in its documented place). -/
theorem placeholder_phases (inst : Installer) (st : FS) (dir : FPath) :
    iterInstalledScripts dir = []
    ∧ Phase.installDataDir ∉ (install inst st dir).trace
    ∧ ((install inst st dir).err = none →
        (install inst st dir).trace
          = [.extractDeclared, .generateScripts, .writeMetadata, .writeRecordPhase]) := by
  refine ⟨rfl, ?_, ?_⟩
  · cases hz : Zip.read inst.zip (DistInfo.record inst.distInfo) with
    | none =>
        rw [install_eq_error inst st dir st _ (iterInstalled_eq_none inst st dir hz)]
        exact (by decide : Phase.installDataDir ∉ [Phase.extractDeclared])
    | some c =>
        cases hII : installItems inst st dir (parseRecordContent c) with
        | mk fs1 res =>
            cases res with
            | error e =>
                rw [install_eq_error inst st dir fs1 e
                  ((iterInstalled_eq_some inst st dir c hz).trans hII)]
                exact (by decide : Phase.installDataDir ∉ [Phase.extractDeclared])
            | ok items =>
                rw [install_eq_ok inst st dir fs1 items
                  ((iterInstalled_eq_some inst st dir c hz).trans hII)]
                exact (by decide : Phase.installDataDir ∉
                  [Phase.extractDeclared, Phase.generateScripts, Phase.writeMetadata,
                   Phase.writeRecordPhase])
  · intro h
    obtain ⟨c, fs1, hz, hII, hinst⟩ := install_succ inst st dir h
    rw [hinst]

/-- Witness for the amended C8 at a concrete successful installation. -/
theorem placeholder_phases_witness :
    iterInstalledScripts dirEx = []
    ∧ (install instEx2 fsEmpty dirEx).trace
        = [.extractDeclared, .generateScripts, .writeMetadata, .writeRecordPhase] := by
  obtain ⟨h1, -, h3⟩ := placeholder_phases instEx2 fsEmpty dirEx
  exact ⟨h1, h3 (by decide)⟩

theorem installRecordItem_eq_notFound (inst : Installer) (fs : FS)
    (item : RecordItem) (dir : FPath)
    (hz : Zip.read inst.zip item.path = none) :
    installRecordItem inst fs item dir = (fs, some (.entryNotFound item.path)) := by
  simp only [installRecordItem, hz]

theorem installRecordItem_eq_invalid (inst : Installer) (fs : FS)
    (item : RecordItem) (dir : FPath) (data : Content) (e : Err)
    (hz : Zip.read inst.zip item.path = some data)
    (hv : raiseForValidation inst.hashFn item data = some e) :
    installRecordItem inst fs item dir = (fs, some e) := by
  simp only [installRecordItem, hz, hv]

theorem installRecordItem_eq_ok (inst : Installer) (fs : FS)
    (item : RecordItem) (dir : FPath) (data : Content)
    (hz : Zip.read inst.zip item.path = some data)
    (hv : raiseForValidation inst.hashFn item data = none) :
    installRecordItem inst fs item dir
      = openAdjacentTmpForWrite inst.name fs (dir ++ item.path) (.ok data) := by
  simp only [installRecordItem, hz, hv]

theorem raiseForValidation_mismatch (hashFn : String → Content → String)
    (item : RecordItem) (data : Content) (alg dig : String)
    (hh : item.hash_ = some (alg, dig)) (hne : hashFn alg data ≠ dig) :
    raiseForValidation hashFn item data = some (.hashMismatch item.path) := by
  unfold raiseForValidation
  rw [hh]
  simp [hne]

theorem itemFails_spec (inst : Installer) (r : RecordItem)
    (h : itemFails inst r = true) (fs : FS) (dir : FPath) :
    ∃ e, installRecordItem inst fs r dir = (fs, some e) := by
  cases hz : Zip.read inst.zip r.path with
  | none => exact ⟨_, installRecordItem_eq_notFound inst fs r dir hz⟩
  | some data =>
      cases hv : raiseForValidation inst.hashFn r data with
      | some e => exact ⟨e, installRecordItem_eq_invalid inst fs r dir data e hz hv⟩
      | none =>
          exfalso
          simp only [itemFails, hz, hv] at h
          exact Bool.noConfusion h

theorem installRecordItem_get_preserved (inst : Installer) (fs : FS)
    (item : RecordItem) (dir target : FPath)
    (hc1 : dir ++ item.path = target → itemFails inst item = true)
    (hc2 : dir ++ item.path ≠ target →
      tempOf (dir ++ item.path) inst.name ≠ target) :
    FS.get (installRecordItem inst fs item dir).1 target = FS.get fs target := by
  cases hz : Zip.read inst.zip item.path with
  | none => rw [installRecordItem_eq_notFound inst fs item dir hz]
  | some data =>
      cases hv : raiseForValidation inst.hashFn item data with
      | some e => rw [installRecordItem_eq_invalid inst fs item dir data e hz hv]
      | none =>
          rw [installRecordItem_eq_ok inst fs item dir data hz hv]
          have hfail : itemFails inst item = false := by
            simp only [itemFails, hz, hv]
          have hne : dir ++ item.path ≠ target := by
            intro hc
            have := hc1 hc
            rw [hfail] at this
            exact Bool.noConfusion this
          exact writerOk_get_other inst.name fs (dir ++ item.path) target data
            (Ne.symm hne) (fun hc => (hc2 hne) hc.symm)

theorem installItems_cons_none (inst : Installer) (fs : FS) (dir : FPath)
    (hd : RecordItem) (rest : List RecordItem) (fs1 : FS)
    (hri : installRecordItem inst fs hd dir = (fs1, none)) :
    (installItems inst fs dir (hd :: rest)).1 = (installItems inst fs1 dir rest).1
    ∧ ((installItems inst fs dir (hd :: rest)).2.isOk
        = (installItems inst fs1 dir rest).2.isOk) := by
  simp only [installItems, hri]
  cases installItems inst fs1 dir rest with
  | mk fs2 res => cases res <;> exact ⟨rfl, rfl⟩

theorem installItems_cons_some (inst : Installer) (fs : FS) (dir : FPath)
    (hd : RecordItem) (rest : List RecordItem) (fs1 : FS) (e : Err)
    (hri : installRecordItem inst fs hd dir = (fs1, some e)) :
    installItems inst fs dir (hd :: rest) = (fs1, .error e) := by
  simp only [installItems, hri]

theorem installItems_get_preserved (inst : Installer) (dir target : FPath) :
    ∀ (l : List RecordItem) (fs : FS),
      (∀ r ∈ l, (dir ++ r.path = target → itemFails inst r = true)
        ∧ (dir ++ r.path ≠ target → tempOf (dir ++ r.path) inst.name ≠ target)) →
      FS.get (installItems inst fs dir l).1 target = FS.get fs target := by
  intro l
  induction l with
  | nil =>
      intro fs _
      rfl
  | cons item rest ih =>
      intro fs hcond
      have hstep := installRecordItem_get_preserved inst fs item dir target
        (hcond item (List.mem_cons_self _ _)).1 (hcond item (List.mem_cons_self _ _)).2
      cases hri : installRecordItem inst fs item dir with
      | mk fs1 oe =>
          rw [hri] at hstep
          cases oe with
          | some e =>
              rw [installItems_cons_some inst fs dir item rest fs1 e hri]
              exact hstep
          | none =>
              rw [(installItems_cons_none inst fs dir item rest fs1 hri).1]
              rw [ih fs1 (fun r hr => hcond r (List.mem_cons_of_mem _ hr))]
              exact hstep

theorem installItems_abort (inst : Installer) (dir : FPath) :
    ∀ (l : List RecordItem) (fs : FS) (item : RecordItem), item ∈ l →
      (∀ r ∈ l, r.path = item.path → itemFails inst r = true) →
      ∃ fsE e, installItems inst fs dir l = (fsE, .error e) := by
  intro l
  induction l with
  | nil =>
      intro fs item hmem
      exact absurd hmem (List.not_mem_nil item)
  | cons hd rest ih =>
      intro fs item hmem hcond
      cases hri : installRecordItem inst fs hd dir with
      | mk fs1 oe =>
          cases oe with
          | some e =>
              exact ⟨fs1, e, installItems_cons_some inst fs dir hd rest fs1 e hri⟩
          | none =>
              rcases List.mem_cons.mp hmem with heq | hmem'
              · exfalso
                have hf := hcond hd (List.mem_cons_self _ _) (by rw [heq])
                obtain ⟨e, he⟩ := itemFails_spec inst hd hf fs dir
                rw [he] at hri
                simp at hri
              · obtain ⟨fsE, e, he⟩ := ih fs1 item hmem'
                  (fun r hr hp => hcond r (List.mem_cons_of_mem _ hr) hp)
                refine ⟨fsE, e, ?_⟩
                simp only [installItems, hri, he]

/-- C1 counterexample: a run on an archive whose manifest declares the same
path twice — first with a matching hash, then with a mismatching one.  The
mismatched entry has a present hash that fails validation, and its
`installEntry` aborts before writing, yet its path under the target
directory was still created in that run (by the earlier declared entry), so
the claim's consequence does not hold as stated. -/
theorem hash_mismatch_path_still_written :
    Zip.read instCex.zip (DistInfo.record instCex.distInfo)
        = some (.record [itemGood, itemBad])
    ∧ itemBad.hash_ = some (("id"), ("y"))
    ∧ Zip.read instCex.zip itemBad.path = some (.binary ("x"))
    ∧ instCex.hashFn ("id") (.binary ("x")) ≠ ("y")
    ∧ installRecordItem instCex fsEmpty itemBad dirEx
        = (fsEmpty, some (.hashMismatch itemBad.path))
    ∧ FS.get (install instCex fsEmpty dirEx).fs (dirEx ++ itemBad.path)
        ≠ FS.get fsEmpty (dirEx ++ itemBad.path) := by
  decide

/-- C1 amended: for a declared entry whose hash is present and does not
match the archive content, `installEntry` fails with a hash-mismatch error
strictly before issuing any write for that entry (the state returned is
exactly the state it received), the whole installation aborts, and —
provided no other declared entry of the run writes to that path (same
target path, or a temporary-file path equal to it) — the entry's path under
the target directory is never created or modified in that run. -/
theorem hash_mismatch_no_write (inst : Installer) (st : FS) (dir : FPath)
    (decl : List RecordItem) (item : RecordItem) (alg dig : String)
    (data : Content)
    (hrec : Zip.read inst.zip (DistInfo.record inst.distInfo) = some (.record decl))
    (hmem : item ∈ decl)
    (hread : Zip.read inst.zip item.path = some data)
    (hhash : item.hash_ = some (alg, dig))
    (hne : inst.hashFn alg data ≠ dig)
    (hsame : ∀ r ∈ decl, r.path = item.path → itemFails inst r = true)
    (htmp : ∀ r ∈ decl, dir ++ r.path ≠ dir ++ item.path →
        tempOf (dir ++ r.path) inst.name ≠ dir ++ item.path) :
    installRecordItem inst st item dir = (st, some (.hashMismatch item.path))
    ∧ FS.get (install inst st dir).fs (dir ++ item.path)
        = FS.get st (dir ++ item.path)
    ∧ (install inst st dir).err ≠ none := by
  have hval := raiseForValidation_mismatch inst.hashFn item data alg dig hhash hne
  have hcond : ∀ r ∈ decl, (dir ++ r.path = dir ++ item.path → itemFails inst r = true)
      ∧ (dir ++ r.path ≠ dir ++ item.path →
          tempOf (dir ++ r.path) inst.name ≠ dir ++ item.path) := by
    intro r hr
    exact ⟨fun hp => hsame r hr (List.append_cancel_left hp), htmp r hr⟩
  obtain ⟨fsE, e, he⟩ := installItems_abort inst dir decl st item hmem hsame
  have hiter : iterInstalledRecordItems inst st dir = (fsE, .error e) := by
    rw [iterInstalled_eq_some inst st dir _ hrec]
    exact he
  have hinst := install_eq_error inst st dir fsE e hiter
  refine ⟨installRecordItem_eq_invalid inst st item dir data _ hread hval, ?_, ?_⟩
  · rw [hinst]
    have hpres := installItems_get_preserved inst dir (dir ++ item.path) decl st hcond
    rw [he] at hpres
    exact hpres
  · rw [hinst]
    simp

/-- Witness for the amended C1 at a concrete mismatched entry. -/
theorem hash_mismatch_no_write_witness :
    installRecordItem instC1 fsEmpty itemBad dirEx
        = (fsEmpty, some (.hashMismatch itemBad.path))
    ∧ FS.get (install instC1 fsEmpty dirEx).fs (dirEx ++ itemBad.path)
        = FS.get fsEmpty (dirEx ++ itemBad.path)
    ∧ (install instC1 fsEmpty dirEx).err ≠ none :=
  hash_mismatch_no_write instC1 fsEmpty dirEx [itemBad] itemBad ("id") ("y")
    (.binary ("x")) (by decide) (by decide) (by decide) (by decide) (by decide)
    (by decide) (by decide)

/-- C9 (code bug): `main` parses its arguments and then evaluates
`ZipFileInstaller.create`, an attribute the class does not define (the
constructor classmethod is `from_wheel_path`), so every invocation of the
command — whatever the wheel, destination, or installer identity — raises
`AttributeError` before any installation step and exits non-zero, touching
no filesystem state; the command can never perform an installation or exit
zero. -/
theorem main_always_attribute_error (hashFn : String → Content → String)
    (wheelStem : List Char) (zfOpen : Option Zip) (dest : FPath)
    (installerName : String) (fs : FS) :
    mainModel hashFn wheelStem zfOpen dest installerName fs
        = (fs, .error .attributeError)
    ∧ ("create") ∉ zipFileInstallerClassAttrs
    ∧ defaultInstallerName = ("pypa-installer") := by
  refine ⟨?_, by decide, rfl⟩
  unfold mainModel
  rw [if_neg (by decide)]

theorem splitCharMax_zero (sep : Char) (s : List Char) :
    splitCharMax sep 0 s = [s] := by
  cases s <;> rfl

theorem count_pos_cons (sep c : Char) (rest : List Char) (hc : ¬ (c = sep))
    (h : 0 < (c :: rest).count sep) : 0 < rest.count sep := by
  rwa [List.count_cons, if_neg (by simpa using hc), Nat.add_zero] at h

theorem splitCharMax_count_zero (sep : Char) (s : List Char)
    (h : s.count sep = 0) : ∀ m, splitCharMax sep m s = [s] := by
  induction s with
  | nil => intro m; cases m <;> rfl
  | cons c rest ih =>
      intro m
      have hc : ¬ (c = sep) := by
        intro hc
        rw [List.count_cons, if_pos (by simpa using hc)] at h
        omega
      have hr : rest.count sep = 0 := by
        rwa [List.count_cons, if_neg (by simpa using hc), Nat.add_zero] at h
      cases m with
      | zero => rfl
      | succ m =>
          simp only [splitCharMax, hc, ite_false]
          rw [ih hr (m + 1)]

theorem splitCharMax_succ_pos (sep : Char) (m : Nat) (s : List Char)
    (h : 0 < s.count sep) :
    splitCharMax sep (m + 1) s
      = headToSep sep s :: splitCharMax sep m (chopToSep sep s) := by
  induction s with
  | nil => simp at h
  | cons c rest ih =>
      by_cases hc : c = sep
      · simp [splitCharMax, headToSep, chopToSep, hc]
      · have h' : 0 < rest.count sep := count_pos_cons sep c rest hc h
        simp only [splitCharMax, hc, ite_false]
        rw [ih h']
        simp [headToSep, chopToSep, hc]

theorem splitCharAll_pos (sep : Char) (s : List Char) (h : 0 < s.count sep) :
    splitCharAll sep s = headToSep sep s :: splitCharAll sep (chopToSep sep s) := by
  induction s with
  | nil => simp at h
  | cons c rest ih =>
      by_cases hc : c = sep
      · simp [splitCharAll, headToSep, chopToSep, hc]
      · have h' : 0 < rest.count sep := count_pos_cons sep c rest hc h
        simp only [splitCharAll, hc, ite_false]
        rw [ih h']
        simp [headToSep, chopToSep, hc]

theorem count_chopToSep (sep : Char) (s : List Char) (h : 0 < s.count sep) :
    (chopToSep sep s).count sep = s.count sep - 1 := by
  induction s with
  | nil => simp at h
  | cons c rest ih =>
      by_cases hc : c = sep
      · simp [chopToSep, hc, List.count_cons]
      · have h' : 0 < rest.count sep := count_pos_cons sep c rest hc h
        rw [List.count_cons, if_neg (by simpa using hc), Nat.add_zero]
        simp only [chopToSep, hc, ite_false]
        exact ih h'

theorem splitCharMax_two_of_ge (sep : Char) (s : List Char)
    (h : 2 ≤ s.count sep) :
    splitCharMax sep 2 s
      = [headToSep sep s, headToSep sep (chopToSep sep s),
         chopToSep sep (chopToSep sep s)]
    ∧ (splitCharAll sep s).take 2
      = [headToSep sep s, headToSep sep (chopToSep sep s)] := by
  have h1 : 0 < s.count sep := by omega
  have h2 : 0 < (chopToSep sep s).count sep := by
    rw [count_chopToSep sep s h1]
    omega
  constructor
  · rw [splitCharMax_succ_pos sep 1 s h1,
      splitCharMax_succ_pos sep 0 (chopToSep sep s) h2,
      splitCharMax_zero]
  · rw [splitCharAll_pos sep s h1, splitCharAll_pos sep (chopToSep sep s) h2]
    rfl

/-- C10: opening an installer from a wheel path splits the file-name stem
on `-` with maxsplit 2 and unpacks three pieces before anything else.  With
fewer than two dashes in the stem this raises `ValueError` regardless of
whether the archive could even be opened (so strictly before the archive is
opened, and the construction touches no filesystem state at all); with at
least two dashes, the project name and version handed to the metadata
resolver are the first two dash-separated components of the stem. -/
theorem from_wheel_path_stem_split (hashFn : String → Content → String)
    (name : String) (stem : List Char) :
    (stem.count ('-') < 2 →
      ∀ zfOpen, fromWheelPath hashFn name stem zfOpen = .error .valueError)
    ∧ (2 ≤ stem.count ('-') →
      ∃ a b r, splitCharMax ('-') 2 stem = [a, b, r]
        ∧ (splitCharAll ('-') stem).take 2 = [a, b]
        ∧ ∀ zf, fromWheelPath hashFn name stem (some zf)
            = (DistInfo.find a.asString b.asString
                (zf.entries.map (fun e => topLevelName e.1))).map
              (fun di => ⟨name, di, zf, hashFn⟩)) := by
  constructor
  · intro h zfOpen
    have hcases : stem.count ('-') = 0 ∨ stem.count ('-') = 1 := by omega
    rcases hcases with h0 | h1
    · have hs := splitCharMax_count_zero ('-') stem h0 2
      simp only [fromWheelPath, hs]
    · have hpos : 0 < stem.count ('-') := by omega
      have hchop : (chopToSep ('-') stem).count ('-') = 0 := by
        rw [count_chopToSep ('-') stem hpos, h1]
      have hs : splitCharMax ('-') 2 stem
          = [headToSep ('-') stem, chopToSep ('-') stem] := by
        rw [splitCharMax_succ_pos ('-') 1 stem hpos,
          splitCharMax_count_zero ('-') (chopToSep ('-') stem) hchop 1]
      simp only [fromWheelPath, hs]
  · intro h
    obtain ⟨hs, ht⟩ := splitCharMax_two_of_ge ('-') stem h
    refine ⟨headToSep ('-') stem, headToSep ('-') (chopToSep ('-') stem),
      chopToSep ('-') (chopToSep ('-') stem), hs, ht, ?_⟩
    intro zf
    simp only [fromWheelPath, hs]

/-- Witness for C10: a one-dash stem is rejected even with no archive
available; a three-dash stem resolves its first two components. -/
theorem from_wheel_path_stem_split_witness :
    fromWheelPath hashFnEx ("n") stemBadEx none = .error .valueError
    ∧ ∃ a b r, splitCharMax ('-') 2 stemGoodEx = [a, b, r]
      ∧ (splitCharAll ('-') stemGoodEx).take 2 = [a, b]
      ∧ ∀ zf, fromWheelPath hashFnEx ("n") stemGoodEx (some zf)
          = (DistInfo.find a.asString b.asString
              (zf.entries.map (fun e => topLevelName e.1))).map
            (fun di => ⟨("n"), di, zf, hashFnEx⟩) := by
  obtain ⟨h1, -⟩ := from_wheel_path_stem_split hashFnEx ("n") stemBadEx
  obtain ⟨-, h2⟩ := from_wheel_path_stem_split hashFnEx ("n") stemGoodEx
  exact ⟨h1 (by decide) none, h2 (by decide)⟩
